import Mathlib

/-!
# Verification of the general directed weighted graph container (gdwg)

A shallow embedding of src/src/gdwg_graph.h.

The C++ container stores nodes in std::set<shared_ptr<N>, compare_shared_ptr>
ordered by node value, and edges in std::set<edge_tuple, compare_edges_set>
where an edge_tuple is (shared_ptr<N> src, shared_ptr<N> dst, shared_ptr<edge>).
Every endpoint pointer stored in the edge set is the canonical pointer held by
the node set for that value: insert_edge obtains the pointers via find_node_ptr,
update_node replaces pointers by canonical ones, and erase_node removes all
tuples holding the erased pointer.  Consequently pointer identity between edge
endpoints and node-set pointers coincides with node-value equality, and the
container is faithfully modelled at the value level: a node set is a strictly
sorted list of values, an edge set is a strictly sorted (by the comparator of
compare_edges_set) list of records (src value, dst value, optional weight).

The C++ node type N only has to supply operator< (a strict total order for a
regular type) and the weight type E likewise, so the embedding is parameterised
by a boolean strict total order, kept computable so that concrete instances
(Nat, Char, String) evaluate inside the kernel.
-/

namespace Gdwg

/-- A decidable strict total order, the interface that the C++ template
assumes of the node type N (operator<) and of the weight type E. -/
class StrictOrder (α : Type) where
  blt : α → α → Bool
  blt_irrefl : ∀ a, blt a a = false
  blt_trans : ∀ a b c, blt a b = true → blt b c = true → blt a c = true
  blt_eq : ∀ a b, blt a b = false → blt b a = false → a = b

export StrictOrder (blt blt_irrefl blt_trans blt_eq)

theorem blt_asymm {α : Type} [StrictOrder α] {a b : α} (h : blt a b = true) :
    blt b a = false := by
  by_contra hc
  have h2 : blt b a = true := by
    cases hba : blt b a
    · exact absurd hba hc
    · rfl
  have : blt a a = true := blt_trans a b a h h2
  rw [blt_irrefl] at this
  exact Bool.false_ne_true this

theorem blt_ne {α : Type} [StrictOrder α] {a b : α} (h : blt a b = true) : a ≠ b := by
  intro he
  subst he
  rw [blt_irrefl] at h
  exact Bool.false_ne_true h

theorem blt_of_ne {α : Type} [StrictOrder α] {a b : α} (hne : a ≠ b)
    (h : blt a b = false) : blt b a = true := by
  cases hba : blt b a
  · exact absurd (blt_eq a b h hba) hne
  · rfl

instance : StrictOrder Nat where
  blt a b := decide (a < b)
  blt_irrefl a := by simp
  blt_trans a b c h1 h2 := by
    simp only [decide_eq_true_eq] at *
    omega
  blt_eq a b h1 h2 := by
    simp only [decide_eq_false_iff_not] at *
    omega

/-- Lexicographic order on character lists, modelling std::string::operator<
(std::lexicographical_compare over the characters). -/
def listCharLt : List Char → List Char → Bool
  | _, [] => false
  | [], _ :: _ => true
  | a :: as, b :: bs =>
      if a < b then true
      else if b < a then false
      else listCharLt as bs

theorem listCharLt_irrefl : ∀ l, listCharLt l l = false := by
  intro l
  induction l with
  | nil => rfl
  | cons a as ih => simp [listCharLt, ih]

theorem listCharLt_trans :
    ∀ l1 l2 l3, listCharLt l1 l2 = true → listCharLt l2 l3 = true →
      listCharLt l1 l3 = true := by
  intro l1
  induction l1 with
  | nil =>
    intro l2 l3 h1 h2
    cases l2 with
    | nil => exact absurd h1 (by simp [listCharLt])
    | cons b bs =>
      cases l3 with
      | nil => exact absurd h2 (by simp [listCharLt])
      | cons c cs => simp [listCharLt]
  | cons a as ih =>
    intro l2 l3 h1 h2
    cases l2 with
    | nil => exact absurd h1 (by simp [listCharLt])
    | cons b bs =>
      cases l3 with
      | nil => exact absurd h2 (by simp [listCharLt])
      | cons c cs =>
        simp only [listCharLt] at h1 h2 ⊢
        by_cases hab : a < b
        · by_cases hbc : b < c
          · simp [lt_trans hab hbc]
          · by_cases hcb : c < b
            · simp [hbc, hcb] at h2
            · have hbc2 : b = c := le_antisymm (not_lt.1 hcb) (not_lt.1 hbc)
              subst hbc2
              simp [hab]
        · by_cases hba : b < a
          · simp [hab, hba] at h1
          · have hab2 : a = b := le_antisymm (not_lt.1 hba) (not_lt.1 hab)
            subst hab2
            rw [if_neg (lt_irrefl a), if_neg (lt_irrefl a)] at h1
            by_cases hac : a < c
            · simp [hac]
            · by_cases hca : c < a
              · simp [hac, hca] at h2
              · rw [if_neg hac, if_neg hca] at h2 ⊢
                exact ih bs cs h1 h2

theorem listCharLt_eq :
    ∀ l1 l2, listCharLt l1 l2 = false → listCharLt l2 l1 = false → l1 = l2 := by
  intro l1
  induction l1 with
  | nil =>
    intro l2 h1 _
    cases l2 with
    | nil => rfl
    | cons b bs => exact absurd h1 (by simp [listCharLt])
  | cons a as ih =>
    intro l2 h1 h2
    cases l2 with
    | nil => exact absurd h2 (by simp [listCharLt])
    | cons b bs =>
      simp only [listCharLt] at h1 h2
      by_cases hab : a < b
      · simp [hab] at h1
      · by_cases hba : b < a
        · simp [hba, hab] at h2
        · have hab2 : a = b := le_antisymm (not_lt.1 hba) (not_lt.1 hab)
          subst hab2
          rw [if_neg (lt_irrefl a), if_neg (lt_irrefl a)] at h1 h2
          rw [ih bs h1 h2]

instance : StrictOrder String where
  blt a b := listCharLt a.data b.data
  blt_irrefl a := listCharLt_irrefl a.data
  blt_trans a b c := listCharLt_trans a.data b.data c.data
  blt_eq a b h1 h2 := by
    cases a with
    | mk la =>
      cases b with
      | mk lb =>
        have : la = lb := listCharLt_eq la lb h1 h2
        rw [this]

/-- A stored edge record at the value level: the source node value, the
destination node value and the optional weight.  This is the observable
content of a C++ edge_tuple (the two endpoint shared_ptr values together with
the edge object, whose own src_/dst_ fields are kept equal to the endpoint
pointer values by insert_edge and update_node). -/
structure ERec (N E : Type) where
  src : N
  dst : N
  weight : Option E
deriving DecidableEq

variable {N E : Type}

/-- gdwg::edge::edge_comp as a strict order test: both unweighted compare
equal, unweighted sorts before weighted, two weighted edges compare by
weight (the non-floating-point branch; the claims never use a floating
weight type). -/
def wLt [StrictOrder E] : Option E → Option E → Bool
  | none, none => false
  | none, some _ => true
  | some _, none => false
  | some a, some b => blt a b

/-- gdwg::graph::compare_edges_set at the value level: compare source values
when they differ, else destination values when they differ, else the weights
via edge_comp.  (The C++ comparator guards with pointer inequality; for the
canonical pointers stored in the container, pointer inequality coincides
with value inequality.) -/
def eLt [DecidableEq N] [StrictOrder N] [StrictOrder E] (a b : ERec N E) : Bool :=
  if a.src ≠ b.src then blt a.src b.src
  else if a.dst ≠ b.dst then blt a.dst b.dst
  else wLt a.weight b.weight

theorem wLt_irrefl [StrictOrder E] (w : Option E) : wLt w w = false := by
  cases w <;> simp [wLt, blt_irrefl]

theorem wLt_trans [StrictOrder E] {a b c : Option E} (h1 : wLt a b = true)
    (h2 : wLt b c = true) : wLt a c = true := by
  cases a <;> cases b <;> cases c <;> simp_all [wLt]
  exact blt_trans _ _ _ h1 h2

theorem wLt_eq [StrictOrder E] {a b : Option E} (h1 : wLt a b = false)
    (h2 : wLt b a = false) : a = b := by
  cases a <;> cases b <;> simp_all [wLt]
  exact blt_eq _ _ h1 h2

theorem eLt_irrefl [DecidableEq N] [StrictOrder N] [StrictOrder E]
    (a : ERec N E) : eLt a a = false := by
  simp [eLt, wLt_irrefl]

theorem eLt_iff [DecidableEq N] [StrictOrder N] [StrictOrder E]
    {a b : ERec N E} :
    eLt a b = true ↔
      blt a.src b.src = true
      ∨ (a.src = b.src ∧ blt a.dst b.dst = true)
      ∨ (a.src = b.src ∧ a.dst = b.dst ∧ wLt a.weight b.weight = true) := by
  unfold eLt
  by_cases h1 : a.src = b.src
  · by_cases h2 : a.dst = b.dst
    · simp [h1, h2, blt_irrefl]
    · simp [h1, h2, blt_irrefl]
  · simp only [ne_eq, h1, not_false_eq_true, if_true]
    constructor
    · exact fun h => Or.inl h
    · rintro (h | ⟨he, _⟩ | ⟨he, _⟩)
      · exact h
      · exact he.elim
      · exact he.elim

theorem eLt_trans [DecidableEq N] [StrictOrder N] [StrictOrder E]
    {a b c : ERec N E} (h1 : eLt a b = true) (h2 : eLt b c = true) :
    eLt a c = true := by
  rw [eLt_iff] at h1 h2 ⊢
  rcases h1 with h1 | ⟨e1, h1⟩ | ⟨e1, e1d, h1⟩
  · rcases h2 with h2 | ⟨e2, h2⟩ | ⟨e2, e2d, h2⟩
    · exact Or.inl (blt_trans _ _ _ h1 h2)
    · exact Or.inl (e2 ▸ h1)
    · exact Or.inl (e2 ▸ h1)
  · rcases h2 with h2 | ⟨e2, h2⟩ | ⟨e2, e2d, h2⟩
    · exact Or.inl (e1 ▸ h2)
    · exact Or.inr (Or.inl ⟨e1.trans e2, blt_trans _ _ _ h1 h2⟩)
    · exact Or.inr (Or.inl ⟨e1.trans e2, e2d ▸ h1⟩)
  · rcases h2 with h2 | ⟨e2, h2⟩ | ⟨e2, e2d, h2⟩
    · exact Or.inl (e1 ▸ h2)
    · exact Or.inr (Or.inl ⟨e1.trans e2, e1d ▸ h2⟩)
    · exact Or.inr (Or.inr ⟨e1.trans e2, e1d.trans e2d, wLt_trans h1 h2⟩)

theorem eLt_eq [DecidableEq N] [StrictOrder N] [StrictOrder E]
    {a b : ERec N E} (h1 : eLt a b = false) (h2 : eLt b a = false) : a = b := by
  have h1' := Bool.eq_false_iff.1 h1
  have h2' := Bool.eq_false_iff.1 h2
  rw [Ne, eLt_iff] at h1' h2'
  push_neg at h1' h2'
  obtain ⟨hs1, hd1, hw1⟩ := h1'
  obtain ⟨hs2, hd2, hw2⟩ := h2'
  have hs : a.src = b.src :=
    blt_eq _ _ (Bool.not_eq_true _ ▸ hs1) (Bool.not_eq_true _ ▸ hs2)
  have hd : a.dst = b.dst :=
    blt_eq _ _ (Bool.not_eq_true _ ▸ hd1 hs) (Bool.not_eq_true _ ▸ hd2 hs.symm)
  have hw : a.weight = b.weight :=
    wLt_eq (Bool.not_eq_true _ ▸ hw1 hs hd) (Bool.not_eq_true _ ▸ hw2 hs.symm hd.symm)
  cases a; cases b
  simp_all

theorem eLt_ne [DecidableEq N] [StrictOrder N] [StrictOrder E]
    {a b : ERec N E} (h : eLt a b = true) : a ≠ b := by
  intro he
  subst he
  rw [eLt_irrefl] at h
  exact Bool.false_ne_true h

section SortedSet

variable {α : Type} (lt : α → α → Bool)

/-- std::set::insert on the sorted-list representation: insert in order, and
keep the existing element (no-op) when an equivalent one is present. -/
def sinsert (a : α) : List α → List α
  | [] => [a]
  | b :: l => if lt a b then a :: b :: l else if lt b a then b :: sinsert a l else b :: l

/-- std::set::erase of the element equivalent to a (for the orders used here,
equivalence is equality); also the behaviour of erasing a found iterator. -/
def serase [DecidableEq α] (a : α) : List α → List α
  | [] => []
  | b :: l => if b = a then l else b :: serase a l

theorem mem_sinsert
    (heqv : ∀ x y, lt x y = false → lt y x = false → x = y) {x a : α} {l : List α} :
    x ∈ sinsert lt a l ↔ x = a ∨ x ∈ l := by
  induction l with
  | nil => simp [sinsert]
  | cons b l ih =>
    simp only [sinsert]
    by_cases h1 : lt a b = true
    · simp [h1]
    · rw [if_neg h1]
      by_cases h2 : lt b a = true
      · rw [if_pos h2]
        simp only [List.mem_cons, ih]
        tauto
      · rw [if_neg h2]
        have hab : b = a :=
          heqv b a (Bool.eq_false_iff.2 h2) (Bool.eq_false_iff.2 h1)
        subst hab
        simp only [List.mem_cons]
        tauto

theorem pairwise_sinsert
    (heqv : ∀ x y, lt x y = false → lt y x = false → x = y)
    (htrans : ∀ x y z, lt x y = true → lt y z = true → lt x z = true)
    {a : α} {l : List α}
    (hs : l.Pairwise (fun x y => lt x y = true)) :
    (sinsert lt a l).Pairwise (fun x y => lt x y = true) := by
  induction l with
  | nil => simp [sinsert]
  | cons b l ih =>
    rw [List.pairwise_cons] at hs
    obtain ⟨hb, hl⟩ := hs
    simp only [sinsert]
    by_cases h1 : lt a b = true
    · rw [if_pos h1]
      refine List.pairwise_cons.2 ⟨?_, List.pairwise_cons.2 ⟨hb, hl⟩⟩
      intro x hx
      rcases List.mem_cons.1 hx with h | h
      · exact h ▸ h1
      · exact htrans a b x h1 (hb x h)
    · rw [if_neg h1]
      by_cases h2 : lt b a = true
      · rw [if_pos h2]
        refine List.pairwise_cons.2 ⟨?_, ih hl⟩
        intro x hx
        rcases (mem_sinsert lt heqv).1 hx with h | h
        · exact h ▸ h2
        · exact hb x h
      · rw [if_neg h2]
        exact List.pairwise_cons.2 ⟨hb, hl⟩

theorem sinsert_append
    (htrans : ∀ x y z, lt x y = true → lt y z = true → lt x z = true)
    (hirr : ∀ x, lt x x = false)
    {a : α} {l : List α} (hall : ∀ b ∈ l, lt b a = true) :
    sinsert lt a l = l ++ [a] := by
  induction l with
  | nil => rfl
  | cons b l ih =>
    have hba : lt b a = true := hall b (by simp)
    have hab : lt a b = false := by
      cases h : lt a b
      · rfl
      · have := htrans a b a h hba
        rw [hirr] at this
        exact absurd this Bool.false_ne_true
    simp only [sinsert, hab, Bool.false_eq_true, if_false, hba, if_true]
    rw [ih (fun x hx => hall x (by simp [hx]))]
    simp

theorem mem_foldl_sinsert
    (heqv : ∀ x y, lt x y = false → lt y x = false → x = y) {x : α} {l acc : List α} :
    x ∈ l.foldl (fun acc r => sinsert lt r acc) acc ↔ x ∈ acc ∨ x ∈ l := by
  induction l generalizing acc with
  | nil => simp
  | cons b l ih =>
    simp only [List.foldl_cons, ih, mem_sinsert lt heqv, List.mem_cons]
    tauto

theorem pairwise_foldl_sinsert
    (heqv : ∀ x y, lt x y = false → lt y x = false → x = y)
    (htrans : ∀ x y z, lt x y = true → lt y z = true → lt x z = true)
    {l acc : List α}
    (hs : acc.Pairwise (fun x y => lt x y = true)) :
    (l.foldl (fun acc r => sinsert lt r acc) acc).Pairwise
      (fun x y => lt x y = true) := by
  induction l generalizing acc with
  | nil => exact hs
  | cons b l ih => exact ih (pairwise_sinsert lt heqv htrans hs)

theorem foldl_sinsert_of_sorted
    (htrans : ∀ x y z, lt x y = true → lt y z = true → lt x z = true)
    (hirr : ∀ x, lt x x = false)
    {l acc : List α}
    (hs : (acc ++ l).Pairwise (fun x y => lt x y = true)) :
    l.foldl (fun acc r => sinsert lt r acc) acc = acc ++ l := by
  induction l generalizing acc with
  | nil => simp
  | cons b l ih =>
    simp only [List.foldl_cons]
    have hall : ∀ x ∈ acc, lt x b = true := by
      rw [List.pairwise_append] at hs
      exact fun x hx => hs.2.2 x hx b (by simp)
    rw [sinsert_append lt htrans hirr hall]
    have hs2 : ((acc ++ [b]) ++ l).Pairwise (fun x y => lt x y = true) := by
      simpa using hs
    rw [ih hs2]
    simp

end SortedSet

section Serase

variable {α : Type} [DecidableEq α]

theorem serase_sublist (a : α) (l : List α) : (serase a l).Sublist l := by
  induction l with
  | nil => simp [serase]
  | cons b l ih =>
    simp only [serase]
    by_cases h : b = a
    · rw [if_pos h]
      exact (List.sublist_cons_self b l)
    · rw [if_neg h]
      exact ih.cons₂ b

theorem mem_of_mem_serase {x a : α} {l : List α} (h : x ∈ serase a l) : x ∈ l :=
  (serase_sublist a l).mem h

theorem mem_serase_of_ne {x a : α} {l : List α} (hne : x ≠ a) :
    x ∈ serase a l ↔ x ∈ l := by
  induction l with
  | nil => simp [serase]
  | cons b l ih =>
    simp only [serase]
    by_cases h : b = a
    · rw [if_pos h]
      subst h
      simp only [List.mem_cons]
      constructor
      · exact fun hx => Or.inr hx
      · rintro (rfl | hx)
        · exact absurd rfl hne
        · exact hx
    · rw [if_neg h]
      simp [ih]

theorem not_mem_serase_self {a : α} {l : List α} (hnd : l.Nodup) :
    a ∉ serase a l := by
  induction l with
  | nil => simp [serase]
  | cons b l ih =>
    rw [List.nodup_cons] at hnd
    simp only [serase]
    by_cases h : b = a
    · rw [if_pos h]
      exact h ▸ hnd.1
    · rw [if_neg h]
      intro hx
      rcases List.mem_cons.1 hx with rfl | hx
      · exact h rfl
      · exact ih hnd.2 hx

theorem pairwise_serase {a : α} {l : List α} {P : α → α → Prop}
    (hs : l.Pairwise P) : (serase a l).Pairwise P :=
  hs.sublist (serase_sublist a l)

/-- std::unique on a vector, as used by gdwg::graph::connections: keep the
first element of every run of adjacent equal elements. -/
def dedupAdjAux (prev : α) : List α → List α
  | [] => []
  | b :: l => if b = prev then dedupAdjAux prev l else b :: dedupAdjAux b l

def dedupAdj : List α → List α
  | [] => []
  | a :: l => a :: dedupAdjAux a l

end Serase

section GraphOps

variable {N E : Type} [DecidableEq N] [DecidableEq E] [StrictOrder N] [StrictOrder E]

/-- gdwg::graph at the value level: the node set nodes_ as its strictly
increasing list of values, the edge set edges_ as its strictly increasing
(under compare_edges_set) list of records. -/
structure Graph (N E : Type) where
  nodes : List N
  edges : List (ERec N E)
deriving DecidableEq

/-- The default constructor: both stores empty. -/
def emptyGraph : Graph N E := ⟨[], []⟩

/-- The initializer-list / iterator-range constructors: insert every listed
value into the node set (duplicates collapse). -/
def graphFromList (l : List N) : Graph N E :=
  ⟨l.foldl (fun acc v => sinsert blt v acc) [], []⟩

/-- gdwg::graph::is_node: nodes_.contains(value). -/
def is_node (g : Graph N E) (v : N) : Bool := decide (v ∈ g.nodes)

/-- gdwg::graph::empty: nodes_.empty(). -/
def graph_empty (g : Graph N E) : Bool := g.nodes.isEmpty

/- The exception messages (paraphrased without apostrophes; the claims only
depend on which calls raise an error, not on the text). -/
def msg_insert_edge : String :=
  "Cannot call gdwg::graph insert_edge when either src or dst node does not exist"

def msg_replace_node : String :=
  "Cannot call gdwg::graph replace_node on a node that does not exist"

def msg_merge_replace_node : String :=
  "Cannot call gdwg::graph merge_replace_node on old or new data if they do not exist in the graph"

def msg_erase_edge : String :=
  "Cannot call gdwg::graph erase_edge on src or dst if they do not exist in the graph"

def msg_is_connected : String :=
  "Cannot call gdwg::graph is_connected if src or dst node do not exist in the graph"

def msg_edges : String :=
  "Cannot call gdwg::graph edges if src or dst node do not exist in the graph"

def msg_connections : String :=
  "Cannot call gdwg::graph connections if src does not exist in the graph"

/-- gdwg::graph::insert_node. -/
def insert_node (g : Graph N E) (v : N) : Bool × Graph N E :=
  if v ∈ g.nodes then (false, g)
  else (true, { g with nodes := sinsert blt v g.nodes })

/-- std::set::contains on the edge set: an element equivalent under the
comparator exists. -/
def econtains (l : List (ERec N E)) (r : ERec N E) : Bool :=
  l.any (fun x => !(eLt x r) && !(eLt r x))

/-- gdwg::graph::insert_edge: throws when an endpoint is missing, returns
false when an equivalent record is already stored, otherwise inserts.
The mutating operations return the (exception-or-result, final state) pair;
the state component equals the input whenever the error is raised, mirroring
the fact that the C++ code checks its precondition before any mutation. -/
def insert_edge (g : Graph N E) (src dst : N) (w : Option E) :
    Except String Bool × Graph N E :=
  if src ∈ g.nodes ∧ dst ∈ g.nodes then
    if econtains g.edges ⟨src, dst, w⟩ then (Except.ok false, g)
    else (Except.ok true, { g with edges := sinsert eLt ⟨src, dst, w⟩ g.edges })
  else (Except.error msg_insert_edge, g)

/-- An edge touches a node value when the value is its source or its
destination (the predicate of std::erase_if in erase_node and of the pointer
test in update_node). -/
def touches (old : N) (e : ERec N E) : Bool :=
  decide (e.src = old) || decide (e.dst = old)

/-- Endpoint rewrite performed by update_node on one record. -/
def rw_node (old nw : N) (e : ERec N E) : ERec N E :=
  ⟨if e.src = old then nw else e.src, if e.dst = old then nw else e.dst, e.weight⟩

/-- gdwg::graph::update_node: remove every record touching old, rewrite its
endpoints to nw, and re-insert the rewritten records into the remaining set
(set insertion silently absorbs duplicates). -/
def update_node (es : List (ERec N E)) (old nw : N) : List (ERec N E) :=
  ((es.filter (fun e => touches old e)).map (rw_node old nw)).foldl
    (fun acc r => sinsert eLt r acc)
    (es.filter (fun e => !(touches old e)))

/-- gdwg::graph::replace_node.  Note the source order: the is_node(new_data)
test comes before any old == new test, so replacing a node by itself
returns false. -/
def replace_node (g : Graph N E) (old_data new_data : N) :
    Except String Bool × Graph N E :=
  if old_data ∈ g.nodes then
    if new_data ∈ g.nodes then (Except.ok false, g)
    else if old_data ≠ new_data then
      (Except.ok true,
        { nodes := sinsert blt new_data (serase old_data g.nodes),
          edges := update_node g.edges old_data new_data })
    else (Except.ok true, g)
  else (Except.error msg_replace_node, g)

/-- gdwg::graph::merge_replace_node. -/
def merge_replace_node (g : Graph N E) (old_data new_data : N) :
    Except String Unit × Graph N E :=
  if old_data ∈ g.nodes ∧ new_data ∈ g.nodes then
    if old_data ≠ new_data then
      (Except.ok (),
        { nodes := serase old_data g.nodes,
          edges := update_node g.edges old_data new_data })
    else (Except.ok (), g)
  else (Except.error msg_merge_replace_node, g)

/-- gdwg::graph::erase_node: remove the node and erase_if every incident
record. -/
def erase_node (g : Graph N E) (v : N) : Bool × Graph N E :=
  if v ∈ g.nodes then
    (true, { nodes := serase v g.nodes,
             edges := g.edges.filter (fun e => !(touches v e)) })
  else (false, g)

/-- gdwg::graph::erase_edge by value triple: throws when an endpoint is
missing, otherwise erases the first record equal to the triple. -/
def erase_edge (g : Graph N E) (src dst : N) (w : Option E) :
    Except String Bool × Graph N E :=
  if src ∈ g.nodes ∧ dst ∈ g.nodes then
    if (⟨src, dst, w⟩ : ERec N E) ∈ g.edges then
      (Except.ok true, { g with edges := serase (⟨src, dst, w⟩ : ERec N E) g.edges })
    else (Except.ok false, g)
  else (Except.error msg_erase_edge, g)

/-- gdwg::graph::clear. -/
def clear (_ : Graph N E) : Graph N E := ⟨[], []⟩

/-- gdwg::graph::is_connected. -/
def is_connected (g : Graph N E) (src dst : N) : Except String Bool :=
  if src ∈ g.nodes ∧ dst ∈ g.nodes then
    Except.ok (g.edges.any (fun e => decide (e.src = src) && decide (e.dst = dst)))
  else Except.error msg_is_connected

/-- gdwg::graph::nodes: the sorted snapshot of node values. -/
def nodesQ (g : Graph N E) : List N := g.nodes

/-- gdwg::graph::edges(src, dst): clones of every record with these
endpoints, in store order. -/
def edgesQ (g : Graph N E) (src dst : N) : Except String (List (ERec N E)) :=
  if src ∈ g.nodes ∧ dst ∈ g.nodes then
    Except.ok (g.edges.filter (fun e => decide (e.src = src) && decide (e.dst = dst)))
  else Except.error msg_edges

/-- gdwg::graph::find: linear search over the edge store in order; the
result is the index of the first matching record (the iterator position),
none playing the role of the end iterator.  It never throws. -/
def find (g : Graph N E) (src dst : N) (w : Option E) : Option Nat :=
  g.edges.findIdx?
    (fun e => decide (e.src = src) && decide (e.dst = dst) && decide (e.weight = w))

/-- gdwg::graph::connections: destinations of the records leaving src, with
adjacent duplicates removed by std::unique. -/
def connections (g : Graph N E) (src : N) : Except String (List N) :=
  if src ∈ g.nodes then
    Except.ok (dedupAdj (g.edges.filterMap
      (fun e => if e.src = src then some e.dst else none)))
  else Except.error msg_connections

/-- gdwg::graph::operator==: sizes, then node values elementwise, then edge
records elementwise (for lists, that is exactly list equality). -/
def graph_eq (g1 g2 : Graph N E) : Bool :=
  decide (g1.nodes = g2.nodes) && decide (g1.edges = g2.edges)

/-- gdwg::weighted_edge::print_edge and gdwg::unweighted_edge::print_edge,
parameterised by the stream renderings of N and E. -/
def print_edge (prN : N → String) (prE : E → String) (e : ERec N E) : String :=
  match e.weight with
  | some w => prN e.src ++ " -> " ++ prN e.dst ++ " | W | " ++ prE w
  | none => prN e.src ++ " -> " ++ prN e.dst ++ " | U"

/-- gdwg::operator<<: a leading newline, then for every node in store order a
header line, the indented print_edge line of every record whose source is
that node (in store order), and a closing parenthesis line. -/
def render (prN : N → String) (prE : E → String) (g : Graph N E) : String :=
  "\n" ++ String.join (g.nodes.map (fun n =>
    prN n ++ " (\n"
      ++ String.join ((g.edges.filter (fun e => decide (e.src = n))).map
            (fun e => "  " ++ print_edge prN prE e ++ "\n"))
      ++ ")\n"))

/-- gdwg::graph::deep_copy (the copy constructor and copy assignment):
clear, re-insert every node value, then re-insert every edge record via
insert_edge.  The result component of each insert_edge is dropped; on a
well-formed source the endpoint check never fails and no record is a
duplicate, so every insertion succeeds (deep_copy_eq). -/
def deep_copy (other : Graph N E) : Graph N E :=
  other.edges.foldl (fun g e => (insert_edge g e.src e.dst e.weight).2)
    (⟨other.nodes.foldl (fun acc n => sinsert blt n acc) [], []⟩ : Graph N E)

/-- The public mutating operations, for stating reachability. -/
inductive GOp (N E : Type) where
  | insertNode (v : N)
  | insertEdge (s d : N) (w : Option E)
  | replaceNode (o n : N)
  | mergeReplaceNode (o n : N)
  | eraseNode (v : N)
  | eraseEdge (s d : N) (w : Option E)
  | clearAll

def applyGOp (g : Graph N E) : GOp N E → Graph N E
  | .insertNode v => (insert_node g v).2
  | .insertEdge s d w => (insert_edge g s d w).2
  | .replaceNode o n => (replace_node g o n).2
  | .mergeReplaceNode o n => (merge_replace_node g o n).2
  | .eraseNode v => (erase_node g v).2
  | .eraseEdge s d w => (erase_edge g s d w).2
  | .clearAll => clear g

/-- The graph states reachable by any sequence of public operations:
construction (default, from a value listing), the mutators, copying
(deep_copy) and moving (the destination receives the source state, the
moved-from source is left equal to emptyGraph, which is reachable). -/
inductive Reachable : Graph N E → Prop where
  | emptyStart : Reachable emptyGraph
  | fromList (l : List N) : Reachable (graphFromList l)
  | step {g : Graph N E} (o : GOp N E) : Reachable g → Reachable (applyGOp g o)
  | copy {g : Graph N E} : Reachable g → Reachable (deep_copy g)

/-- Strictly increasing node store. -/
def SortedNodes (l : List N) : Prop := l.Pairwise (fun a b => blt a b = true)

/-- Strictly increasing edge store under compare_edges_set. -/
def SortedEdges (l : List (ERec N E)) : Prop := l.Pairwise (fun a b => eLt a b = true)

/-- The representation invariant of the container: both stores strictly
sorted (hence duplicate-free) and no dangling edge endpoints. -/
def WF (g : Graph N E) : Prop :=
  SortedNodes g.nodes ∧ SortedEdges g.edges ∧
    ∀ e ∈ g.edges, e.src ∈ g.nodes ∧ e.dst ∈ g.nodes

instance (l : List N) : Decidable (SortedNodes l) := by
  unfold SortedNodes
  infer_instance

instance (l : List (ERec N E)) : Decidable (SortedEdges l) := by
  unfold SortedEdges
  infer_instance

instance (g : Graph N E) : Decidable (WF g) := by
  unfold WF
  infer_instance

end GraphOps

section Invariants

variable {N E : Type} [DecidableEq N] [DecidableEq E] [StrictOrder N] [StrictOrder E]

omit [DecidableEq E] in
theorem eLt_heqv :
    ∀ x y : ERec N E, eLt x y = false → eLt y x = false → x = y :=
  fun _ _ h1 h2 => eLt_eq h1 h2

omit [DecidableEq E] in
theorem eLt_htrans :
    ∀ x y z : ERec N E, eLt x y = true → eLt y z = true → eLt x z = true :=
  fun _ _ _ h1 h2 => eLt_trans h1 h2

omit [DecidableEq E] in
theorem eLt_hirr : ∀ x : ERec N E, eLt x x = false := fun x => eLt_irrefl x

omit [DecidableEq E] in
/-- Set membership under comparator equivalence is plain membership: the
comparator is a strict total order on record values. -/
theorem econtains_iff {l : List (ERec N E)} {r : ERec N E} :
    econtains l r = true ↔ r ∈ l := by
  unfold econtains
  rw [List.any_eq_true]
  constructor
  · rintro ⟨x, hx, hb⟩
    rw [Bool.and_eq_true, Bool.not_eq_true', Bool.not_eq_true'] at hb
    exact eLt_eq hb.1 hb.2 ▸ hx
  · intro hr
    exact ⟨r, hr, by simp [eLt_irrefl]⟩

omit [DecidableEq E] [StrictOrder N] [StrictOrder E] in
theorem touches_eq_false {o : N} {e : ERec N E} :
    touches o e = false ↔ e.src ≠ o ∧ e.dst ≠ o := by
  unfold touches
  simp

omit [DecidableEq E] [StrictOrder N] [StrictOrder E] in
theorem touches_eq_true {o : N} {e : ERec N E} :
    touches o e = true ↔ e.src = o ∨ e.dst = o := by
  unfold touches
  simp

omit [DecidableEq E] [StrictOrder N] [StrictOrder E] in
theorem rw_node_src (o nw : N) (e : ERec N E) :
    (rw_node o nw e).src = if e.src = o then nw else e.src := rfl

omit [DecidableEq E] [StrictOrder N] [StrictOrder E] in
theorem rw_node_dst (o nw : N) (e : ERec N E) :
    (rw_node o nw e).dst = if e.dst = o then nw else e.dst := rfl

omit [DecidableEq E] [StrictOrder N] [StrictOrder E] in
theorem rw_node_weight (o nw : N) (e : ERec N E) :
    (rw_node o nw e).weight = e.weight := rfl

omit [DecidableEq E] in
/-- Membership after update_node: a record survives untouched when neither
endpoint was the old value, and every touched record reappears rewritten. -/
theorem mem_update_node {es : List (ERec N E)} {o nw : N} {x : ERec N E} :
    x ∈ update_node es o nw ↔
      (x ∈ es ∧ touches o x = false) ∨
      (∃ e ∈ es, touches o e = true ∧ x = rw_node o nw e) := by
  unfold update_node
  rw [mem_foldl_sinsert eLt eLt_heqv]
  constructor
  · rintro (h | h)
    · rw [List.mem_filter] at h
      refine Or.inl ⟨h.1, ?_⟩
      simpa using h.2
    · rw [List.mem_map] at h
      obtain ⟨e, he, rfl⟩ := h
      rw [List.mem_filter] at he
      exact Or.inr ⟨e, he.1, he.2, rfl⟩
  · rintro (⟨hx, ht⟩ | ⟨e, he, ht, rfl⟩)
    · refine Or.inl (List.mem_filter.2 ⟨hx, ?_⟩)
      simp [ht]
    · exact Or.inr (List.mem_map.2 ⟨e, List.mem_filter.2 ⟨he, ht⟩, rfl⟩)

omit [DecidableEq E] in
theorem sorted_update_node {es : List (ERec N E)} {o nw : N}
    (hs : SortedEdges es) : SortedEdges (update_node es o nw) :=
  pairwise_foldl_sinsert eLt eLt_heqv eLt_htrans (hs.filter _)

omit [DecidableEq N] in
theorem sortedNodes_nodup {l : List N} (h : SortedNodes l) : l.Nodup :=
  h.imp (fun hlt => blt_ne hlt)

omit [DecidableEq E] in
theorem sortedEdges_nodup {l : List (ERec N E)} (h : SortedEdges l) : l.Nodup :=
  h.imp (fun hlt => eLt_ne hlt)

omit [DecidableEq E] in
theorem WF_emptyGraph : WF (emptyGraph : Graph N E) :=
  ⟨List.Pairwise.nil, List.Pairwise.nil, by intro e he; simp [emptyGraph] at he⟩

omit [DecidableEq E] in
theorem WF_graphFromList (l : List N) : WF (graphFromList l : Graph N E) := by
  refine ⟨?_, List.Pairwise.nil, ?_⟩
  · exact pairwise_foldl_sinsert blt blt_eq blt_trans List.Pairwise.nil
  · intro e he
    simp [graphFromList] at he

omit [DecidableEq E] in
theorem WF_insert_node {g : Graph N E} (h : WF g) (v : N) :
    WF (insert_node g v).2 := by
  unfold insert_node
  by_cases hv : v ∈ g.nodes
  · simp only [if_pos hv]
    exact h
  · simp only [if_neg hv]
    obtain ⟨hn, he, hcl⟩ := h
    refine ⟨pairwise_sinsert blt blt_eq blt_trans hn, he, ?_⟩
    intro e hee
    obtain ⟨h1, h2⟩ := hcl e hee
    exact ⟨(mem_sinsert blt blt_eq).2 (Or.inr h1),
           (mem_sinsert blt blt_eq).2 (Or.inr h2)⟩

omit [DecidableEq E] in
theorem WF_insert_edge {g : Graph N E} (h : WF g) (src dst : N) (w : Option E) :
    WF (insert_edge g src dst w).2 := by
  unfold insert_edge
  by_cases hg : src ∈ g.nodes ∧ dst ∈ g.nodes
  · simp only [if_pos hg]
    by_cases hc : econtains g.edges ⟨src, dst, w⟩ = true
    · simp only [if_pos hc]
      exact h
    · simp only [if_neg hc]
      obtain ⟨hn, he, hcl⟩ := h
      refine ⟨hn, pairwise_sinsert eLt eLt_heqv eLt_htrans he, ?_⟩
      intro e hee
      rcases (mem_sinsert eLt eLt_heqv).1 hee with rfl | hee2
      · exact ⟨hg.1, hg.2⟩
      · exact hcl e hee2
  · simp only [if_neg hg]
    exact h

omit [DecidableEq E] in
theorem WF_replace_node {g : Graph N E} (h : WF g) (o n : N) :
    WF (replace_node g o n).2 := by
  unfold replace_node
  by_cases ho : o ∈ g.nodes
  · simp only [if_pos ho]
    by_cases hn : n ∈ g.nodes
    · simp only [if_pos hn]
      exact h
    · simp only [if_neg hn]
      by_cases hon : o ≠ n
      · simp only [if_pos hon]
        obtain ⟨hsn, hse, hcl⟩ := h
        refine ⟨pairwise_sinsert blt blt_eq blt_trans (pairwise_serase hsn),
                sorted_update_node hse, ?_⟩
        intro e he
        rw [mem_update_node] at he
        rcases he with ⟨hee, ht⟩ | ⟨e0, he0, ht0, rfl⟩
        · obtain ⟨hts, htd⟩ := touches_eq_false.1 ht
          obtain ⟨h1, h2⟩ := hcl e hee
          exact ⟨(mem_sinsert blt blt_eq).2 (Or.inr ((mem_serase_of_ne hts).2 h1)),
                 (mem_sinsert blt blt_eq).2 (Or.inr ((mem_serase_of_ne htd).2 h2))⟩
        · obtain ⟨h1, h2⟩ := hcl e0 he0
          constructor
          · rw [rw_node_src]
            by_cases hs : e0.src = o
            · simp only [if_pos hs]
              exact (mem_sinsert blt blt_eq).2 (Or.inl rfl)
            · simp only [if_neg hs]
              exact (mem_sinsert blt blt_eq).2 (Or.inr ((mem_serase_of_ne hs).2 h1))
          · rw [rw_node_dst]
            by_cases hd : e0.dst = o
            · simp only [if_pos hd]
              exact (mem_sinsert blt blt_eq).2 (Or.inl rfl)
            · simp only [if_neg hd]
              exact (mem_sinsert blt blt_eq).2 (Or.inr ((mem_serase_of_ne hd).2 h2))
      · simp only [if_neg hon]
        exact h
  · simp only [if_neg ho]
    exact h

omit [DecidableEq E] in
theorem WF_merge_replace_node {g : Graph N E} (h : WF g) (o n : N) :
    WF (merge_replace_node g o n).2 := by
  unfold merge_replace_node
  by_cases hg : o ∈ g.nodes ∧ n ∈ g.nodes
  · simp only [if_pos hg]
    by_cases hon : o ≠ n
    · simp only [if_pos hon]
      obtain ⟨hsn, hse, hcl⟩ := h
      refine ⟨pairwise_serase hsn, sorted_update_node hse, ?_⟩
      intro e he
      rw [mem_update_node] at he
      have hno : n ≠ o := fun hno => hon hno.symm
      rcases he with ⟨hee, ht⟩ | ⟨e0, he0, ht0, rfl⟩
      · obtain ⟨hts, htd⟩ := touches_eq_false.1 ht
        obtain ⟨h1, h2⟩ := hcl e hee
        exact ⟨(mem_serase_of_ne hts).2 h1, (mem_serase_of_ne htd).2 h2⟩
      · obtain ⟨h1, h2⟩ := hcl e0 he0
        constructor
        · rw [rw_node_src]
          by_cases hs : e0.src = o
          · simp only [if_pos hs]
            exact (mem_serase_of_ne hno).2 hg.2
          · simp only [if_neg hs]
            exact (mem_serase_of_ne hs).2 h1
        · rw [rw_node_dst]
          by_cases hd : e0.dst = o
          · simp only [if_pos hd]
            exact (mem_serase_of_ne hno).2 hg.2
          · simp only [if_neg hd]
            exact (mem_serase_of_ne hd).2 h2
    · simp only [if_neg hon]
      exact h
  · simp only [if_neg hg]
    exact h

omit [DecidableEq E] in
theorem WF_erase_node {g : Graph N E} (h : WF g) (v : N) :
    WF (erase_node g v).2 := by
  unfold erase_node
  by_cases hv : v ∈ g.nodes
  · simp only [if_pos hv]
    obtain ⟨hsn, hse, hcl⟩ := h
    refine ⟨pairwise_serase hsn, hse.filter _, ?_⟩
    intro e he
    rw [List.mem_filter] at he
    obtain ⟨hee, ht⟩ := he
    have ht2 : touches v e = false := by simpa using ht
    obtain ⟨hts, htd⟩ := touches_eq_false.1 ht2
    obtain ⟨h1, h2⟩ := hcl e hee
    exact ⟨(mem_serase_of_ne hts).2 h1, (mem_serase_of_ne htd).2 h2⟩
  · simp only [if_neg hv]
    exact h

theorem WF_erase_edge {g : Graph N E} (h : WF g) (src dst : N) (w : Option E) :
    WF (erase_edge g src dst w).2 := by
  unfold erase_edge
  by_cases hg : src ∈ g.nodes ∧ dst ∈ g.nodes
  · simp only [if_pos hg]
    by_cases hr : (⟨src, dst, w⟩ : ERec N E) ∈ g.edges
    · simp only [if_pos hr]
      obtain ⟨hsn, hse, hcl⟩ := h
      refine ⟨hsn, pairwise_serase hse, ?_⟩
      intro e he
      exact hcl e (mem_of_mem_serase he)
    · simp only [if_neg hr]
      exact h
  · simp only [if_neg hg]
    exact h

omit [DecidableEq E] in
theorem WF_clear (g : Graph N E) : WF (clear g) :=
  ⟨List.Pairwise.nil, List.Pairwise.nil, by intro e he; simp [clear] at he⟩

omit [DecidableEq E] in
/-- Inserting a strictly ascending, endpoint-closed run of records via
insert_edge appends them: each record passes the endpoint check, is not yet
present, and lands at the end of the store. -/
theorem foldl_insert_edge_sorted {nodes : List N} :
    ∀ {es acc : List (ERec N E)},
      SortedEdges (acc ++ es) →
      (∀ e ∈ es, e.src ∈ nodes ∧ e.dst ∈ nodes) →
      es.foldl (fun g e => (insert_edge g e.src e.dst e.weight).2)
        (⟨nodes, acc⟩ : Graph N E) = ⟨nodes, acc ++ es⟩ := by
  intro es
  induction es with
  | nil =>
    intro acc _ _
    simp
  | cons e es ih =>
    intro acc hs hend
    have hmem : e.src ∈ nodes ∧ e.dst ∈ nodes := hend e (by simp)
    have hsP : (acc ++ e :: es).Pairwise (fun a b => eLt a b = true) := hs
    have hall : ∀ x ∈ acc, eLt x e = true := by
      rw [List.pairwise_append] at hsP
      exact fun x hx => hsP.2.2 x hx e (by simp)
    have hnotin : econtains acc (⟨e.src, e.dst, e.weight⟩ : ERec N E) ≠ true := by
      intro hc
      have he2 : (⟨e.src, e.dst, e.weight⟩ : ERec N E) = e := rfl
      rw [he2, econtains_iff] at hc
      have := hall e hc
      rw [eLt_irrefl] at this
      exact Bool.false_ne_true this
    simp only [List.foldl_cons]
    have hstep : (insert_edge (⟨nodes, acc⟩ : Graph N E) e.src e.dst e.weight).2
        = (⟨nodes, acc ++ [e]⟩ : Graph N E) := by
      unfold insert_edge
      simp only [if_pos hmem, if_neg hnotin]
      have he2 : (⟨e.src, e.dst, e.weight⟩ : ERec N E) = e := rfl
      rw [he2]
      have : sinsert eLt e acc = acc ++ [e] :=
        sinsert_append eLt eLt_htrans eLt_hirr hall
      rw [this]
    rw [hstep]
    have hs2 : SortedEdges ((acc ++ [e]) ++ es) := by
      simpa using hs
    have hend2 : ∀ x ∈ es, x.src ∈ nodes ∧ x.dst ∈ nodes :=
      fun x hx => hend x (by simp [hx])
    rw [ih hs2 hend2]
    simp

omit [DecidableEq E] in
/-- deep_copy rebuilds exactly the same value-level state. -/
theorem deep_copy_eq {g : Graph N E} (h : WF g) : deep_copy g = g := by
  obtain ⟨hn, he, hcl⟩ := h
  unfold deep_copy
  have h0 : (([] : List N) ++ g.nodes).Pairwise (fun a b => blt a b = true) := by
    simpa using hn
  have h1 := foldl_sinsert_of_sorted blt blt_trans blt_irrefl h0
  rw [List.nil_append] at h1
  rw [h1]
  have he0 : SortedEdges (([] : List (ERec N E)) ++ g.edges) := by
    show (([] : List (ERec N E)) ++ g.edges).Pairwise (fun a b => eLt a b = true)
    simpa using he
  have h2 := foldl_insert_edge_sorted he0 hcl
  rw [h2]
  rfl

omit [DecidableEq E] in
theorem WF_deep_copy {g : Graph N E} (h : WF g) : WF (deep_copy g) := by
  rw [deep_copy_eq h]
  exact h

theorem WF_applyGOp {g : Graph N E} (h : WF g) (o : GOp N E) :
    WF (applyGOp g o) := by
  cases o with
  | insertNode v => exact WF_insert_node h v
  | insertEdge s d w => exact WF_insert_edge h s d w
  | replaceNode a b => exact WF_replace_node h a b
  | mergeReplaceNode a b => exact WF_merge_replace_node h a b
  | eraseNode v => exact WF_erase_node h v
  | eraseEdge s d w => exact WF_erase_edge h s d w
  | clearAll => exact WF_clear g

/-- Every reachable state satisfies the representation invariant. -/
theorem WF_reachable {g : Graph N E} (h : Reachable g) : WF g := by
  induction h with
  | emptyStart => exact WF_emptyGraph
  | fromList l => exact WF_graphFromList l
  | step o _ ih => exact WF_applyGOp ih o
  | copy _ ih => exact WF_deep_copy ih

omit [DecidableEq E] [StrictOrder N] [StrictOrder E] in
theorem rw_node_of_not_touches {o nw : N} {e : ERec N E}
    (h : touches o e = false) : rw_node o nw e = e := by
  obtain ⟨h1, h2⟩ := touches_eq_false.1 h
  unfold rw_node
  rw [if_neg h1, if_neg h2]

omit [DecidableEq E] in
theorem mem_update_node_rw {es : List (ERec N E)} {o nw : N} {e : ERec N E}
    (he : e ∈ es) : rw_node o nw e ∈ update_node es o nw := by
  rw [mem_update_node]
  by_cases ht : touches o e = true
  · exact Or.inr ⟨e, he, ht, rfl⟩
  · have ht2 : touches o e = false := Bool.eq_false_iff.2 ht
    rw [rw_node_of_not_touches ht2]
    exact Or.inl ⟨he, ht2⟩

omit [StrictOrder N] [StrictOrder E] in
/-- The search predicate of find matches exactly the queried triple. -/
theorem find_pred_iff {s d : N} {w : Option E} {x : ERec N E} :
    (decide (x.src = s) && decide (x.dst = d) && decide (x.weight = w)) = true
      ↔ x = (⟨s, d, w⟩ : ERec N E) := by
  constructor
  · intro h
    rw [Bool.and_eq_true, Bool.and_eq_true] at h
    obtain ⟨⟨h1, h2⟩, h3⟩ := h
    rw [decide_eq_true_eq] at h1 h2 h3
    cases x
    simp_all
  · rintro rfl
    simp

end Invariants

section ConcreteGraphs

/-- Two plain nodes 0 and 1, no edges. -/
def g01 : Graph Nat Nat :=
  (insert_node (insert_node (emptyGraph : Graph Nat Nat) 0).2 1).2

/-- Nodes 0 and 1 with the single weighted record 0 -> 1 of weight 7, built
through the public operations. -/
def gW2 : Graph Nat Nat :=
  applyGOp (applyGOp (applyGOp (emptyGraph : Graph Nat Nat) (GOp.insertNode 0))
    (GOp.insertNode 1)) (GOp.insertEdge 0 1 (some 7))

/-- Nodes 0, 1, 2 with records 0 -> 2 (weight 3) and 1 -> 2 (weight 3):
merging 0 into 1 must absorb the duplicate. -/
def gMerge : Graph Nat Nat :=
  (insert_edge (insert_edge
    (insert_node (insert_node (insert_node (emptyGraph : Graph Nat Nat) 0).2 1).2 2).2
    0 2 (some 3)).2 1 2 (some 3)).2

/-- Nodes 0 and 1 with only the weighted record 0 -> 1 of weight 5. -/
def gC10 : Graph Nat Nat :=
  (insert_edge (insert_node (insert_node (emptyGraph : Graph Nat Nat) 0).2 1).2
    0 1 (some 5)).2

/-- The demo graph of the specification scenario, built in the insertion
order of the scenario. -/
def demoG : Graph String Nat :=
  (insert_edge (insert_edge (insert_edge (insert_edge (insert_edge (insert_edge
    (insert_node (insert_node (insert_node (insert_node
      (emptyGraph : Graph String Nat) "hello").2 "how").2 "are").2 "you?").2
    "hello" "how" (some 5)).2
    "hello" "are" (some 8)).2
    "hello" "are" (some 2)).2
    "how" "you?" (some 1)).2
    "how" "hello" (some 4)).2
    "are" "you?" (some 3)).2

end ConcreteGraphs

section Claims

variable {N E : Type} [DecidableEq N] [DecidableEq E] [StrictOrder N] [StrictOrder E]

omit [DecidableEq E] in
/-- C1 (amended): replace_node(old, new) raises the node-not-found error if
old is not a node; if old is a node and new already exists as a node —
including the case old = new, where the code's is_node(new) test fires
before any self-replacement test — it returns false and changes nothing;
otherwise it renames the node to new, rewrites the endpoint references of
every incident edge from old to new, and returns true. -/
theorem C1_replace_node_spec (g : Graph N E) (o n : N) (hwf : WF g) :
    (o ∉ g.nodes → replace_node g o n = (Except.error msg_replace_node, g))
    ∧ (o ∈ g.nodes → n ∈ g.nodes → replace_node g o n = (Except.ok false, g))
    ∧ (o ∈ g.nodes → n ∉ g.nodes →
        (replace_node g o n).1 = Except.ok true
        ∧ n ∈ (replace_node g o n).2.nodes
        ∧ o ∉ (replace_node g o n).2.nodes
        ∧ (∀ x, x ≠ o → x ≠ n →
            ((x ∈ (replace_node g o n).2.nodes) ↔ x ∈ g.nodes))
        ∧ (∀ r, r ∈ (replace_node g o n).2.edges ↔
            ∃ e ∈ g.edges, r = rw_node o n e)) := by
  refine ⟨?_, ?_, ?_⟩
  · intro ho
    unfold replace_node
    rw [if_neg ho]
  · intro ho hn
    unfold replace_node
    rw [if_pos ho, if_pos hn]
  · intro ho hn
    have hon : o ≠ n := fun h => hn (h ▸ ho)
    unfold replace_node
    rw [if_pos ho, if_neg hn, if_pos hon]
    refine ⟨rfl, ?_, ?_, ?_, ?_⟩
    · exact (mem_sinsert blt blt_eq).2 (Or.inl rfl)
    · intro hmem
      rcases (mem_sinsert blt blt_eq).1 hmem with h | h
      · exact hon h
      · exact not_mem_serase_self (sortedNodes_nodup hwf.1) h
    · intro x hxo hxn
      rw [mem_sinsert blt blt_eq]
      constructor
      · rintro (rfl | h)
        · exact absurd rfl hxn
        · exact mem_of_mem_serase h
      · intro hx
        exact Or.inr ((mem_serase_of_ne hxo).2 hx)
    · intro r
      rw [mem_update_node]
      constructor
      · rintro (⟨hr, ht⟩ | ⟨e, he, ht, rfl⟩)
        · exact ⟨r, hr, (rw_node_of_not_touches ht).symm⟩
        · exact ⟨e, he, rfl⟩
      · rintro ⟨e, he, rfl⟩
        by_cases ht : touches o e = true
        · exact Or.inr ⟨e, he, ht, rfl⟩
        · have ht2 : touches o e = false := Bool.eq_false_iff.2 ht
          rw [rw_node_of_not_touches ht2]
          exact Or.inl ⟨he, ht2⟩

/-- C1 counterexample: on the graph with nodes 0 and 1, replace_node(0, 0)
returns false, not true as the claim states for the old = new case (the
repository's own test "Replace Node with Same Value" requires false). -/
theorem C1_replace_node_self_false :
    0 ∈ g01.nodes
    ∧ (replace_node g01 0 0).1 = Except.ok false
    ∧ (replace_node g01 0 0).1 ≠ Except.ok true := by
  refine ⟨by decide, rfl, ?_⟩
  intro h
  have h0 : (replace_node g01 0 0).1 = Except.ok false := rfl
  rw [h0] at h
  exact Bool.false_ne_true (Except.ok.inj h)

/-- C1 witness: the amended theorem applied to the concrete graph g01. -/
theorem C1_replace_node_witness :
    WF g01
    ∧ ((0 ∉ g01.nodes → replace_node g01 0 5 = (Except.error msg_replace_node, g01))
       ∧ (0 ∈ g01.nodes → 5 ∈ g01.nodes → replace_node g01 0 5 = (Except.ok false, g01))
       ∧ (0 ∈ g01.nodes → 5 ∉ g01.nodes →
           (replace_node g01 0 5).1 = Except.ok true
           ∧ 5 ∈ (replace_node g01 0 5).2.nodes
           ∧ 0 ∉ (replace_node g01 0 5).2.nodes
           ∧ (∀ x, x ≠ 0 → x ≠ 5 →
               ((x ∈ (replace_node g01 0 5).2.nodes) ↔ x ∈ g01.nodes))
           ∧ (∀ r, r ∈ (replace_node g01 0 5).2.edges ↔
               ∃ e ∈ g01.edges, r = rw_node 0 5 e))) :=
  ⟨by decide, C1_replace_node_spec g01 0 5 (by decide)⟩

/-- C2: in every graph state reachable by any sequence of public operations
(construction, insertions, renames, merges, erasures, clear, copy, move),
every stored edge's source and destination values are present as nodes. -/
theorem C2_no_dangling (g : Graph N E) (h : Reachable g) :
    ∀ e ∈ g.edges, e.src ∈ g.nodes ∧ e.dst ∈ g.nodes :=
  (WF_reachable h).2.2

/-- C2 witness: a concrete reachable state with an edge, checked to have
both endpoints stored as nodes. -/
theorem C2_no_dangling_witness :
    Reachable gW2 ∧ ∀ e ∈ gW2.edges, e.src ∈ gW2.nodes ∧ e.dst ∈ gW2.nodes := by
  have hr : Reachable gW2 :=
    Reachable.step (GOp.insertEdge 0 1 (some 7))
      (Reachable.step (GOp.insertNode 1)
        (Reachable.step (GOp.insertNode 0) Reachable.emptyStart))
  exact ⟨hr, C2_no_dangling gW2 hr⟩

/-- C3: whenever a mutating operation raises the node-not-found error
(insert_edge, replace_node, merge_replace_node, erase_edge by value), the
returned graph state is exactly the input state: the precondition is
checked before any mutation.  (The querying operations is_connected, edges
and connections are pure in the model: they take the graph by value and
return only a result, so a raised error trivially leaves the graph
unchanged.) -/
theorem C3_error_atomic (g : Graph N E) (s d o n : N) (w : Option E) (m : String) :
    ((insert_edge g s d w).1 = Except.error m → (insert_edge g s d w).2 = g)
    ∧ ((replace_node g o n).1 = Except.error m → (replace_node g o n).2 = g)
    ∧ ((merge_replace_node g o n).1 = Except.error m → (merge_replace_node g o n).2 = g)
    ∧ ((erase_edge g s d w).1 = Except.error m → (erase_edge g s d w).2 = g) := by
  refine ⟨?_, ?_, ?_, ?_⟩
  · intro h
    unfold insert_edge at h ⊢
    by_cases hg : s ∈ g.nodes ∧ d ∈ g.nodes
    · rw [if_pos hg] at h ⊢
      by_cases hc : econtains g.edges ⟨s, d, w⟩ = true
      · rw [if_pos hc] at h
        exact absurd h (by simp)
      · rw [if_neg hc] at h
        exact absurd h (by simp)
    · rw [if_neg hg]
  · intro h
    unfold replace_node at h ⊢
    by_cases ho : o ∈ g.nodes
    · rw [if_pos ho] at h ⊢
      by_cases hn : n ∈ g.nodes
      · rw [if_pos hn] at h
        exact absurd h (by simp)
      · rw [if_neg hn] at h ⊢
        by_cases hon : o ≠ n
        · rw [if_pos hon] at h
          exact absurd h (by simp)
        · rw [if_neg hon] at h
          exact absurd h (by simp)
    · rw [if_neg ho]
  · intro h
    unfold merge_replace_node at h ⊢
    by_cases hg : o ∈ g.nodes ∧ n ∈ g.nodes
    · rw [if_pos hg] at h ⊢
      by_cases hon : o ≠ n
      · rw [if_pos hon] at h
        exact absurd h (by simp)
      · rw [if_neg hon] at h
        exact absurd h (by simp)
    · rw [if_neg hg]
  · intro h
    unfold erase_edge at h ⊢
    by_cases hg : s ∈ g.nodes ∧ d ∈ g.nodes
    · rw [if_pos hg] at h ⊢
      by_cases hr : (⟨s, d, w⟩ : ERec N E) ∈ g.edges
      · rw [if_pos hr] at h
        exact absurd h (by simp)
      · rw [if_neg hr] at h
        exact absurd h (by simp)
    · rw [if_neg hg]

omit [DecidableEq E] in
theorem edgesQ_nodup {g : Graph N E} (hs : SortedEdges g.edges) :
    ∀ x y l, edgesQ g x y = Except.ok l → l.Nodup := by
  intro x y l hl
  unfold edgesQ at hl
  by_cases hxy : x ∈ g.nodes ∧ y ∈ g.nodes
  · rw [if_pos hxy] at hl
    have he := Except.ok.inj hl
    subst he
    exact (sortedEdges_nodup hs).filter _
  · rw [if_neg hxy] at hl
    exact absurd hl (by simp)

omit [DecidableEq E] in
/-- C4: merge_replace_node(a, b) with both nodes present and a distinct
from b removes a, redirects every record formerly incident to a (as source,
destination or both) to reference b, and leaves the edge store free of
duplicates, so every edges query returns a duplicate-free list even when a
and b had equal outgoing records; with a = b and both present it is a no-op
success; with either absent it raises the node-not-found error. -/
theorem C4_merge_replace_node_spec (g : Graph N E) (a b : N) (hwf : WF g) :
    (a ∉ g.nodes ∨ b ∉ g.nodes →
      merge_replace_node g a b = (Except.error msg_merge_replace_node, g))
    ∧ (a ∈ g.nodes → b ∈ g.nodes → a = b →
      merge_replace_node g a b = (Except.ok (), g))
    ∧ (a ∈ g.nodes → b ∈ g.nodes → a ≠ b →
        (merge_replace_node g a b).1 = Except.ok ()
        ∧ a ∉ (merge_replace_node g a b).2.nodes
        ∧ (∀ e ∈ g.edges, rw_node a b e ∈ (merge_replace_node g a b).2.edges)
        ∧ (∀ e ∈ (merge_replace_node g a b).2.edges, e.src ≠ a ∧ e.dst ≠ a)
        ∧ (∀ x y l, edgesQ (merge_replace_node g a b).2 x y = Except.ok l →
            l.Nodup)) := by
  refine ⟨?_, ?_, ?_⟩
  · intro hab
    unfold merge_replace_node
    have hng : ¬ (a ∈ g.nodes ∧ b ∈ g.nodes) := by tauto
    rw [if_neg hng]
  · intro ha hb hab
    unfold merge_replace_node
    rw [if_pos ⟨ha, hb⟩, if_neg (fun h => h hab)]
  · intro ha hb hab
    unfold merge_replace_node
    rw [if_pos ⟨ha, hb⟩, if_pos hab]
    refine ⟨rfl, ?_, ?_, ?_, ?_⟩
    · exact not_mem_serase_self (sortedNodes_nodup hwf.1)
    · intro e he
      exact mem_update_node_rw he
    · intro e he
      rw [mem_update_node] at he
      rcases he with ⟨hee, ht⟩ | ⟨e0, he0, ht0, rfl⟩
      · exact touches_eq_false.1 ht
      · constructor
        · rw [rw_node_src]
          by_cases hsrc : e0.src = a
          · rw [if_pos hsrc]
            exact fun h => hab h.symm
          · rw [if_neg hsrc]
            exact hsrc
        · rw [rw_node_dst]
          by_cases hdst : e0.dst = a
          · rw [if_pos hdst]
            exact fun h => hab h.symm
          · rw [if_neg hdst]
            exact hdst
    · exact edgesQ_nodup (sorted_update_node hwf.2.1)

/-- C4 witness: merging node 0 into node 1 in the graph with the equal
outgoing records 0 -> 2 (3) and 1 -> 2 (3). -/
theorem C4_merge_replace_node_witness :
    WF gMerge
    ∧ ((0 ∉ gMerge.nodes ∨ 1 ∉ gMerge.nodes →
          merge_replace_node gMerge 0 1 = (Except.error msg_merge_replace_node, gMerge))
       ∧ (0 ∈ gMerge.nodes → 1 ∈ gMerge.nodes → 0 = 1 →
          merge_replace_node gMerge 0 1 = (Except.ok (), gMerge))
       ∧ (0 ∈ gMerge.nodes → 1 ∈ gMerge.nodes → 0 ≠ 1 →
            (merge_replace_node gMerge 0 1).1 = Except.ok ()
            ∧ 0 ∉ (merge_replace_node gMerge 0 1).2.nodes
            ∧ (∀ e ∈ gMerge.edges,
                rw_node 0 1 e ∈ (merge_replace_node gMerge 0 1).2.edges)
            ∧ (∀ e ∈ (merge_replace_node gMerge 0 1).2.edges,
                e.src ≠ 0 ∧ e.dst ≠ 0)
            ∧ (∀ x y l, edgesQ (merge_replace_node gMerge 0 1).2 x y = Except.ok l →
                l.Nodup))) :=
  ⟨by decide, C4_merge_replace_node_spec gMerge 0 1 (by decide)⟩

omit [DecidableEq E] in
/-- C5: erase_node(v) returns false and changes nothing when v is absent;
otherwise it removes v and every record whose source or destination is v
(self-loops included) and returns true, after which is_connected with v as
either argument raises the node-not-found error. -/
theorem C5_erase_node_spec (g : Graph N E) (v : N) (hwf : WF g) :
    (v ∉ g.nodes → erase_node g v = (false, g))
    ∧ (v ∈ g.nodes →
        (erase_node g v).1 = true
        ∧ v ∉ (erase_node g v).2.nodes
        ∧ (∀ e ∈ (erase_node g v).2.edges, e.src ≠ v ∧ e.dst ≠ v)
        ∧ (∀ e ∈ g.edges, e.src ≠ v → e.dst ≠ v → e ∈ (erase_node g v).2.edges)
        ∧ (∀ x, ∃ m, is_connected (erase_node g v).2 v x = Except.error m)
        ∧ (∀ x, ∃ m, is_connected (erase_node g v).2 x v = Except.error m)) := by
  refine ⟨?_, ?_⟩
  · intro hv
    unfold erase_node
    rw [if_neg hv]
  · intro hv
    unfold erase_node
    rw [if_pos hv]
    have hvout : v ∉ serase v g.nodes :=
      not_mem_serase_self (sortedNodes_nodup hwf.1)
    refine ⟨rfl, hvout, ?_, ?_, ?_, ?_⟩
    · intro e he
      rw [List.mem_filter] at he
      have ht : touches v e = false := by simpa using he.2
      exact touches_eq_false.1 ht
    · intro e he hsrc hdst
      refine List.mem_filter.2 ⟨he, ?_⟩
      have ht : touches v e = false := touches_eq_false.2 ⟨hsrc, hdst⟩
      simp [ht]
    · intro x
      refine ⟨msg_is_connected, ?_⟩
      unfold is_connected
      rw [if_neg (fun h => hvout h.1)]
    · intro x
      refine ⟨msg_is_connected, ?_⟩
      unfold is_connected
      rw [if_neg (fun h => hvout h.2)]

/-- C5 witness: erasing node 0 from the graph holding the record 0 -> 1. -/
theorem C5_erase_node_witness :
    WF gW2
    ∧ ((0 ∉ gW2.nodes → erase_node gW2 0 = (false, gW2))
       ∧ (0 ∈ gW2.nodes →
            (erase_node gW2 0).1 = true
            ∧ 0 ∉ (erase_node gW2 0).2.nodes
            ∧ (∀ e ∈ (erase_node gW2 0).2.edges, e.src ≠ 0 ∧ e.dst ≠ 0)
            ∧ (∀ e ∈ gW2.edges, e.src ≠ 0 → e.dst ≠ 0 →
                e ∈ (erase_node gW2 0).2.edges)
            ∧ (∀ x, ∃ m, is_connected (erase_node gW2 0).2 0 x = Except.error m)
            ∧ (∀ x, ∃ m, is_connected (erase_node gW2 0).2 x 0 = Except.error m))) :=
  ⟨by decide, C5_erase_node_spec gW2 0 (by decide)⟩

omit [DecidableEq E] in
/-- C6 (amended): with src and dst present and the record not yet stored,
inserting the same (src, dst, weight) twice returns true then false, and the
record is present after both calls; the unweighted record (src, dst) and a
weighted record (src, dst, w), neither stored yet, are independent — both
insertions return true.  (As universally quantified over every graph the
claim fails: when the record is already stored, the first call already
returns false.) -/
theorem C6_insert_edge_twice (g : Graph N E) (s d : N)
    (hs : s ∈ g.nodes) (hd : d ∈ g.nodes) :
    (∀ w, (⟨s, d, w⟩ : ERec N E) ∉ g.edges →
      (insert_edge g s d w).1 = Except.ok true
      ∧ (⟨s, d, w⟩ : ERec N E) ∈ (insert_edge g s d w).2.edges
      ∧ (insert_edge (insert_edge g s d w).2 s d w).1 = Except.ok false
      ∧ (⟨s, d, w⟩ : ERec N E) ∈ (insert_edge (insert_edge g s d w).2 s d w).2.edges)
    ∧ (∀ wv : E, (⟨s, d, none⟩ : ERec N E) ∉ g.edges →
        (⟨s, d, some wv⟩ : ERec N E) ∉ g.edges →
        (insert_edge g s d none).1 = Except.ok true
        ∧ (insert_edge (insert_edge g s d none).2 s d (some wv)).1 = Except.ok true) := by
  constructor
  · intro w habs
    have hc : ¬ econtains g.edges (⟨s, d, w⟩ : ERec N E) = true :=
      fun h => habs (econtains_iff.1 h)
    have h1 : insert_edge g s d w
        = (Except.ok true,
           { g with edges := sinsert eLt (⟨s, d, w⟩ : ERec N E) g.edges }) := by
      unfold insert_edge
      rw [if_pos ⟨hs, hd⟩, if_neg hc]
    have hmem : (⟨s, d, w⟩ : ERec N E)
        ∈ ({ g with edges := sinsert eLt (⟨s, d, w⟩ : ERec N E) g.edges } : Graph N E).edges :=
      (mem_sinsert eLt eLt_heqv).2 (Or.inl rfl)
    have hc2 : econtains (sinsert eLt (⟨s, d, w⟩ : ERec N E) g.edges)
        (⟨s, d, w⟩ : ERec N E) = true :=
      econtains_iff.2 hmem
    have h2 : insert_edge (insert_edge g s d w).2 s d w
        = (Except.ok false, (insert_edge g s d w).2) := by
      rw [h1]
      show insert_edge
          ({ g with edges := sinsert eLt (⟨s, d, w⟩ : ERec N E) g.edges } : Graph N E) s d w
        = (Except.ok false,
           ({ g with edges := sinsert eLt (⟨s, d, w⟩ : ERec N E) g.edges } : Graph N E))
      unfold insert_edge
      rw [if_pos ⟨hs, hd⟩, if_pos hc2]
    refine ⟨by rw [h1], by rw [h1]; exact hmem, by rw [h2], ?_⟩
    rw [h2, h1]
    exact hmem
  · intro wv h0 h1v
    have hcn : ¬ econtains g.edges (⟨s, d, none⟩ : ERec N E) = true :=
      fun h => h0 (econtains_iff.1 h)
    have hA : insert_edge g s d none
        = (Except.ok true,
           { g with edges := sinsert eLt (⟨s, d, none⟩ : ERec N E) g.edges }) := by
      unfold insert_edge
      rw [if_pos ⟨hs, hd⟩, if_neg hcn]
    refine ⟨by rw [hA], ?_⟩
    have hnot : (⟨s, d, some wv⟩ : ERec N E)
        ∉ sinsert eLt (⟨s, d, none⟩ : ERec N E) g.edges := by
      intro hmem
      rcases (mem_sinsert eLt eLt_heqv).1 hmem with h | h
      · exact absurd (congrArg ERec.weight h) (by simp)
      · exact h1v h
    have hcw : ¬ econtains (sinsert eLt (⟨s, d, none⟩ : ERec N E) g.edges)
        (⟨s, d, some wv⟩ : ERec N E) = true :=
      fun h => hnot (econtains_iff.1 h)
    rw [hA]
    show (insert_edge
        ({ g with edges := sinsert eLt (⟨s, d, none⟩ : ERec N E) g.edges } : Graph N E)
        s d (some wv)).1 = Except.ok true
    unfold insert_edge
    rw [if_pos ⟨hs, hd⟩, if_neg hcw]

/-- C6 counterexample: in the graph already holding the record 0 -> 1 with
weight 7, the first call of insert_edge(0, 1, 7) returns false, not true. -/
theorem C6_first_insert_not_always_true :
    0 ∈ gW2.nodes ∧ 1 ∈ gW2.nodes
    ∧ (insert_edge gW2 0 1 (some 7)).1 = Except.ok false
    ∧ (insert_edge gW2 0 1 (some 7)).1 ≠ Except.ok true := by
  refine ⟨by decide, by decide, rfl, ?_⟩
  intro h
  have h0 : (insert_edge gW2 0 1 (some 7)).1 = Except.ok false := rfl
  rw [h0] at h
  exact Bool.false_ne_true (Except.ok.inj h)

/-- C6 witness: the amended theorem applied to the edge-free graph g01. -/
theorem C6_insert_edge_twice_witness :
    (0 ∈ g01.nodes) ∧ (1 ∈ g01.nodes)
    ∧ ((∀ w, (⟨0, 1, w⟩ : ERec Nat Nat) ∉ g01.edges →
          (insert_edge g01 0 1 w).1 = Except.ok true
          ∧ (⟨0, 1, w⟩ : ERec Nat Nat) ∈ (insert_edge g01 0 1 w).2.edges
          ∧ (insert_edge (insert_edge g01 0 1 w).2 0 1 w).1 = Except.ok false
          ∧ (⟨0, 1, w⟩ : ERec Nat Nat)
              ∈ (insert_edge (insert_edge g01 0 1 w).2 0 1 w).2.edges)
       ∧ (∀ wv : Nat, (⟨0, 1, none⟩ : ERec Nat Nat) ∉ g01.edges →
            (⟨0, 1, some wv⟩ : ERec Nat Nat) ∉ g01.edges →
            (insert_edge g01 0 1 none).1 = Except.ok true
            ∧ (insert_edge (insert_edge g01 0 1 none).2 0 1 (some wv)).1
                = Except.ok true)) :=
  ⟨by decide, by decide, C6_insert_edge_twice g01 0 1 (by decide) (by decide)⟩

omit [StrictOrder N] [StrictOrder E] in
/-- C7: find never raises an error; it returns the position of the stored
record matching the triple exactly when one exists (in particular the
record at the returned index is that triple), and the end position (none)
otherwise — also when src or dst is not a node, or when the weight was never
inserted. -/
theorem C7_find_spec (g : Graph N E) (s d : N) (w : Option E) :
    ((⟨s, d, w⟩ : ERec N E) ∉ g.edges → find g s d w = none)
    ∧ (∀ i, find g s d w = some i →
        ∃ h : i < g.edges.length, g.edges.get ⟨i, h⟩ = (⟨s, d, w⟩ : ERec N E))
    ∧ ((⟨s, d, w⟩ : ERec N E) ∈ g.edges → ∃ i, find g s d w = some i) := by
  refine ⟨?_, ?_, ?_⟩
  · intro habs
    unfold find
    rw [List.findIdx?_eq_none_iff]
    intro x hx
    cases hpx : (decide (x.src = s) && decide (x.dst = d) && decide (x.weight = w)) with
    | false => rfl
    | true => exact absurd (find_pred_iff.1 hpx ▸ hx) habs
  · intro i hi
    unfold find at hi
    rw [List.findIdx?_eq_some_iff_getElem] at hi
    obtain ⟨h, hp, _⟩ := hi
    refine ⟨h, ?_⟩
    rw [List.get_eq_getElem]
    exact find_pred_iff.1 hp
  · intro hmem
    cases hf : find g s d w with
    | some i => exact ⟨i, rfl⟩
    | none =>
      exfalso
      unfold find at hf
      rw [List.findIdx?_eq_none_iff] at hf
      have hfalse := hf _ hmem
      have htrue : (decide ((⟨s, d, w⟩ : ERec N E).src = s)
          && decide ((⟨s, d, w⟩ : ERec N E).dst = d)
          && decide ((⟨s, d, w⟩ : ERec N E).weight = w)) = true :=
        find_pred_iff.2 rfl
      rw [htrue] at hfalse
      exact Bool.false_ne_true hfalse.symm

set_option maxRecDepth 8000 in
/-- C8: rendering the scenario graph (nodes hello, how, are, you?; records
hello -> how (5), hello -> are (8), hello -> are (2), how -> you? (1),
how -> hello (4), are -> you? (3)) yields exactly the specified text: a
leading blank line, the nodes in ascending value order, each followed by its
outgoing records in ascending (destination, weight) order and a closing
parenthesis line, with the node you? rendering an empty body. -/
theorem C8_render_concrete :
    nodesQ demoG = ["are", "hello", "how", "you?"]
    ∧ render id toString demoG
      = "\nare (\n  are -> you? | W | 3\n)\nhello (\n  hello -> are | W | 2\n  hello -> are | W | 8\n  hello -> how | W | 5\n)\nhow (\n  how -> hello | W | 4\n  how -> you? | W | 1\n)\nyou? (\n)\n" := by
  decide

/-- C9: a copy (copy construction and copy assignment both run deep_copy)
rebuilds exactly the original's observable state, so the two graphs compare
equal under the structural equality operator; the copy shares no state with
the original in the value-level model, where every subsequent operation on
either graph is a pure function of its own value, so mutating one cannot
change the other. -/
theorem C9_copy_semantics (g : Graph N E) (hwf : WF g) :
    deep_copy g = g ∧ graph_eq (deep_copy g) g = true := by
  have h := deep_copy_eq hwf
  refine ⟨h, ?_⟩
  rw [h]
  unfold graph_eq
  simp

/-- C9 witness: the copy of a concrete three-node graph. -/
theorem C9_copy_semantics_witness :
    deep_copy gMerge = gMerge ∧ graph_eq (deep_copy gMerge) gMerge = true :=
  C9_copy_semantics gMerge (by decide)

omit [StrictOrder N] [StrictOrder E] in
/-- C10: an absent weight argument denotes only the unweighted record, never
a wildcard: in a graph holding weighted records src -> dst but no unweighted
one, find(src, dst) returns the end position and erase_edge(src, dst)
returns false leaving the graph unchanged. -/
theorem C10_absent_weight_spec (g : Graph N E) (s d : N)
    (hs : s ∈ g.nodes) (hd : d ∈ g.nodes)
    (_hweighted : ∃ wv : E, (⟨s, d, some wv⟩ : ERec N E) ∈ g.edges)
    (hnone : (⟨s, d, none⟩ : ERec N E) ∉ g.edges) :
    find g s d none = none ∧ erase_edge g s d none = (Except.ok false, g) := by
  constructor
  · unfold find
    rw [List.findIdx?_eq_none_iff]
    intro x hx
    cases hpx : (decide (x.src = s) && decide (x.dst = d)
        && decide (x.weight = (none : Option E))) with
    | false => rfl
    | true => exact absurd (find_pred_iff.1 hpx ▸ hx) hnone
  · unfold erase_edge
    rw [if_pos ⟨hs, hd⟩, if_neg hnone]

/-- C10 witness: the graph with only the weighted record 0 -> 1 (5). -/
theorem C10_absent_weight_witness :
    find gC10 0 1 none = none
    ∧ erase_edge gC10 0 1 none = (Except.ok false, gC10) :=
  C10_absent_weight_spec gC10 0 1 (by decide) (by decide) ⟨5, by decide⟩ (by decide)

end Claims

end Gdwg
